import Mathlib

/-!
Verification of the CSS at-scope polyfill text-transformation core.

The development shallowly embeds the core functions of the polyfill
(source: src/unnamed/part_001, also present as src/scope-polyfill.js in its
v1.0 variant):

  * findClosingBrace  (depth-counting brace matcher)
  * splitByCommaBalanced (top-level comma splitter, paren/string aware)
  * rewriteSelector   (three-rule selector rewriter)
  * processBlock      (recursive block walker)
  * parseAndTransform (comment strip, scope-head regex scan, extraction)

CSS text is modelled as `List Char`; JavaScript string indices become list
positions.  Loops over a cursor become recursion over the remaining suffix;
JavaScript `-1` sentinels become `Option`, with an `Int`-valued wrapper kept
where the source's `-1` is observable.  Functions whose JS loop is not
structurally recursive are written with an explicit fuel argument that is
initialised to an amount proven sufficient (fuel-independence lemmas below),
so every definition is executable by kernel reduction.
-/

/-- JS whitespace (the set matched by the `\s` regex class and by
`String.prototype.trim`): ASCII whitespace plus NBSP and BOM. The source
uses it in `trim()` calls and in the `\s*` parts of its regexes. -/
def isJsWs (c : Char) : Bool :=
  c == ' ' || c == '\t' || c == '\n' || c == '\r' || c == '\x0b' || c == '\x0c' ||
  c == '\u00A0' || c == '\uFEFF'

/-- JS `String.prototype.trim`: drop whitespace from both ends. -/
def jsTrim (s : List Char) : List Char :=
  ((s.dropWhile isJsWs).reverse.dropWhile isJsWs).reverse

/-- Prefix test on char lists (helper for the `includes` / regex-literal
checks of the source). -/
def leadsWith : List Char → List Char → Bool
  | [], _ => true
  | _ :: _, [] => false
  | p :: ps, c :: cs => p == c && leadsWith ps cs

/-- JS `String.prototype.includes`: `includesSub hay needle` is true iff
`needle` occurs contiguously inside `hay`. -/
def includesSub (hay needle : List Char) : Bool :=
  leadsWith needle hay ||
    (match hay with
     | [] => false
     | _ :: t => includesSub t needle)

/-- `text.indexOf(c) !== -1`, as a Bool. -/
def hasChar (c : Char) : List Char → Bool
  | [] => false
  | a :: t => a == c || hasChar c t

/-- The characters strictly before the first occurrence of `c`
(`text.substring(cursor, text.indexOf(c, cursor))` in suffix form). -/
def beforeChar (c : Char) : List Char → List Char
  | [] => []
  | a :: t => if a == c then [] else a :: beforeChar c t

/-- The suffix strictly after the first occurrence of `c`. -/
def afterChar (c : Char) : List Char → List Char
  | [] => []
  | a :: t => if a == c then t else afterChar c t

/-- Depth contribution of one character in the brace scan of
`findClosingBrace`. -/
def charDelta (c : Char) : Int :=
  if c == '\x7b' then 1 else if c == '\x7d' then -1 else 0

/-- Net brace depth change over a character list. -/
def braceDelta : List Char → Int
  | [] => 0
  | c :: t => charDelta c + braceDelta t

/-- Core of `findClosingBrace` (src/unnamed/part_001 lines 273-282): scan a
suffix with a running depth; on each char, depth increments on an opening
brace and decrements on a closing brace; return the offset of the first
character at which the depth reaches 0, or `none`. Braces inside quoted
strings count as structural, exactly as in the source. -/
def braceScan : List Char → Int → Option Nat
  | [], _ => none
  | c :: rest, depth =>
    let d := depth + charDelta c
    if d = 0 then some 0 else (braceScan rest d).map (· + 1)

/-- `findClosingBrace(text, openBraceIndex)` of the source: depth starts at 1
just after the opening brace; the result is the absolute index of the
matching closing brace, or `-1`. -/
def findClosingBrace (text : List Char) (openBraceIndex : Nat) : Int :=
  match braceScan (text.drop (openBraceIndex + 1)) 1 with
  | some k => ((openBraceIndex + 1 + k : Nat) : Int)
  | none => -1

/-- Specification-side running depth: depth after processing characters
`openIdx+1 .. j` (starting at 1 just after the opening brace). -/
def depthRun (text : List Char) (openIdx j : Nat) : Int :=
  1 + braceDelta ((text.drop (openIdx + 1)).take (j - openIdx))

/-- A brace-balanced chunk: zero net depth change and no prefix closing more
braces than it opened. -/
def BalancedBraces (b : List Char) : Prop :=
  braceDelta b = 0 ∧ ∀ n, n < b.length → 0 ≤ braceDelta (b.take n.succ)

instance : DecidablePred BalancedBraces := fun _ => by
  unfold BalancedBraces; infer_instance

/-- JS `Array.prototype.join(sep)`: interleave a separator between the
elements. -/
def joinSep (sep : List Char) : List (List Char) → List Char
  | [] => []
  | [x] => x
  | x :: y :: t => x ++ sep ++ joinSep sep (y :: t)

/-- Loop body state machine of `splitByCommaBalanced`
(src/unnamed/part_001 lines 228-265).  `prev` is `text[i-1]` (used by the
escaped-quote check), `depth` the parenthesis depth, `inString`/`stringChar`
the quoted-string state, `buffer` the pending element. -/
def splitStep (c : Char) (prev : Option Char) (depth : Int) (inString : Bool)
    (stringChar : Char) : Int × Bool × Char :=
  -- Handle strings (to ignore commas inside quotes); an unescaped quote
  -- matching the open quote closes the string, an unescaped quote outside a
  -- string opens one
  let st :=
    if (c = '\x22' ∨ c = '\x27') ∧ prev ≠ some '\\' then
      if inString ∧ c = stringChar then (false, stringChar)
      else if ¬ inString then (true, c)
      else (inString, stringChar)
    else (inString, stringChar)
  -- Handle parentheses (only if not in string)
  let depth1 :=
    if ¬ st.1 then
      if c = '(' then depth + 1 else if c = ')' then depth - 1 else depth
    else depth
  (depth1, st.1, st.2)

def splitAux : List Char → Option Char → Int → Bool → Char → List Char →
    List (List Char)
  | [], _, _, _, _, buffer => if buffer = [] then [] else [buffer]
  | c :: rest, prev, depth, inString, stringChar, buffer =>
    let s := splitStep c prev depth inString stringChar
    -- Split logic: a comma splits only at depth 0 outside a string
    if c = ',' ∧ s.1 = 0 ∧ ¬ s.2.1 then
      buffer :: splitAux rest (some c) s.1 s.2.1 s.2.2 []
    else
      splitAux rest (some c) s.1 s.2.1 s.2.2 (buffer ++ [c])

/-- `splitByCommaBalanced(text)` of the source. -/
def splitByCommaBalanced (text : List Char) : List (List Char) :=
  splitAux text none 0 false ' ' []

/-- Fuelled core of the global regex replace `s.replace(/:\s*scope/g, root)`:
at each colon the regex matches iff the maximal whitespace run after the
colon is immediately followed by the literal `scope`; the match (colon,
whitespace and keyword) is replaced and scanning resumes after it, otherwise
scanning advances one character.  The replacement string is inserted
verbatim (the source never passes a root selector containing the `$`
patterns that `String.replace` would treat specially). -/
def replaceScopeAux (root : List Char) : Nat → List Char → List Char
  | 0, s => s
  | _ + 1, [] => []
  | fuel + 1, c :: rest =>
    if c = ':' ∧ leadsWith ("scope".data) (rest.dropWhile isJsWs) then
      root ++ replaceScopeAux root fuel ((rest.dropWhile isJsWs).drop 5)
    else
      c :: replaceScopeAux root fuel rest

/-- `s.replace(/:\s*scope/g, rootSelector)` of the source. -/
def replaceScope (s root : List Char) : List Char :=
  replaceScopeAux root s.length s

/-- `s.replace(/&/g, rootSelector)` of the source (again with the
replacement inserted verbatim). -/
def replaceAmp : List Char → List Char → List Char
  | [], _ => []
  | c :: rest, root => (if c = '&' then root else [c]) ++ replaceAmp rest root

/-- The `parts.map(part => ...)` body of `rewriteSelector`
(src/unnamed/part_001 lines 204-218): trim the element, then apply exactly
one of the three rules in priority order — explicit `:scope` placeholder,
nesting `&`, implicit descendant prefix. -/
def rewriteOnePart (rootSelector part : List Char) : List Char :=
  let s := jsTrim part
  if includesSub s (":scope".data) then
    replaceScope s rootSelector
  else if hasChar '&' s then
    replaceAmp s rootSelector
  else
    rootSelector ++ ' ' :: s

/-- `rewriteSelector(selectorLine, rootSelector)`
(src/unnamed/part_001 lines 199-220). -/
def rewriteSelector (selectorLine rootSelector : List Char) : List Char :=
  if jsTrim selectorLine = [] then []
  else
    joinSep (", ".data)
      ((splitByCommaBalanced selectorLine).map (rewriteOnePart rootSelector))

/-- JS `String.prototype.split(',')`: split at every comma, keeping empty
elements (used by the v1.0 variant in src/scope-polyfill.js). -/
def splitAllAux : List Char → List Char → List (List Char)
  | [], buffer => [buffer]
  | c :: rest, buffer =>
    if c = ',' then buffer :: splitAllAux rest []
    else splitAllAux rest (buffer ++ [c])

/-- `selectorLine.split(',')` of the v1.0 source. -/
def splitAll (text : List Char) : List (List Char) := splitAllAux text []

/-- Map body of the v1.0 `rewriteSelector` (src/scope-polyfill.js lines
148-163): the scope-root guard additionally accepts the single-space variant
`: scope`. -/
def rewriteOnePartV1 (rootSelector part : List Char) : List Char :=
  let s := jsTrim part
  if includesSub s (":scope".data) || includesSub s (": scope".data) then
    replaceScope s rootSelector
  else if hasChar '&' s then
    replaceAmp s rootSelector
  else
    rootSelector ++ ' ' :: s

/-- `rewriteSelector` of the v1.0 source (src/scope-polyfill.js lines
145-164): naive comma split, same three rules. -/
def rewriteSelectorV1 (selectorLine rootSelector : List Char) : List Char :=
  if jsTrim selectorLine = [] then []
  else
    joinSep (", ".data)
      ((splitAll selectorLine).map (rewriteOnePartV1 rootSelector))

/-- `headerRaw.startsWith('@')`. -/
def startsWithAt : List Char → Bool
  | '@' :: _ => true
  | _ => false

/-- `/^@(keyframes|font-face)/i.test(headerRaw)`: case-insensitive
keyframes / font-face prefix test. -/
def isDefinitionRule (h : List Char) : Bool :=
  leadsWith ("@keyframes".data) (h.map Char.toLower) ||
  leadsWith ("@font-face".data) (h.map Char.toLower)

/-- Fuelled form of `processBlock` (src/unnamed/part_001 lines 160-191).
One unfolding is one iteration of the source's cursor loop, phrased on the
suffix at the cursor: locate the next opening brace (loop breaks when there
is none), take the text before it as the raw header, match the closing brace
(loop breaks on `-1`), cut out the block body, emit the branch-dependent
text and continue after the closing brace.  The fuel only bounds the
recursion; `processBlockAux_fuel` below shows any fuel above the text length
gives the same result. -/
def processBlockAux (rootSelector : List Char) : Nat → List Char → List Char
  | 0, _ => []
  | fuel + 1, cssText =>
    if hasChar '\x7b' cssText then
      let header := beforeChar '\x7b' cssText
      let post := afterChar '\x7b' cssText
      let headerRaw := jsTrim header
      match braceScan post 1 with
      | none => []
      | some k =>
        let blockBody := post.take k
        let rest := post.drop (k + 1)
        (if startsWithAt headerRaw then
           if isDefinitionRule headerRaw then
             headerRaw ++ (" \x7b".data) ++ blockBody ++ ("\x7d\n".data)
           else
             headerRaw ++ (" \x7b\n".data) ++
               processBlockAux rootSelector fuel blockBody ++ ("\n\x7d\n".data)
         else
           let newSelector := rewriteSelector headerRaw rootSelector
           if newSelector = [] then []
           else newSelector ++ (" \x7b".data) ++ blockBody ++ ("\x7d\n".data))
        ++ processBlockAux rootSelector fuel rest
    else []

/-- `processBlock(cssText, rootSelector)` of the source. -/
def processBlock (cssText rootSelector : List Char) : List Char :=
  processBlockAux rootSelector (cssText.length + 1) cssText

/-- Suffix just after the first `*/`, or `none` (first step of modelling the
lazy comment regex `/\/\*[\s\S]*?\*\//g`). -/
def dropToCommentClose : List Char → Option (List Char)
  | [] => none
  | a :: rest =>
    if a = '*' ∧ rest.head? = some '/' then some rest.tail
    else dropToCommentClose rest

/-- Fuelled comment stripper: `cssText.replace(/\/\*[\s\S]*?\*\//g, '')`
(src/unnamed/part_001 line 133).  At each `/*` the lazy regex consumes up to
the first following `*/`; a `/*` with no closing `*/` does not match and is
kept. -/
def stripAux : Nat → List Char → List Char
  | 0, s => s
  | _ + 1, [] => []
  | fuel + 1, c :: rest =>
    if c = '/' ∧ rest.head? = some '*' then
      match dropToCommentClose rest.tail with
      | some r => stripAux fuel r
      | none => c :: stripAux fuel rest
    else c :: stripAux fuel rest

/-- The comment-strip pass of `parseAndTransform`. -/
def stripComments (cssText : List Char) : List Char :=
  stripAux cssText.length cssText

/-- Anchored match of the scope-head regex `/@scope\s*\(([^)]+)\)\s*\x7b/`
at the start of the given suffix.  On success returns the captured
parenthesis content (the raw root selector) and the suffix just after the
opening brace (the source's `match.index + match[0].length` position). -/
def matchScopeHead (s : List Char) : Option (List Char × List Char) :=
  if leadsWith ("@scope".data) s then
    let r1 := (s.drop 6).dropWhile isJsWs
    if r1.head? = some '(' then
      let content := r1.tail.takeWhile (fun c => c != ')')
      if content = [] then none
      else
        let r3 := r1.tail.dropWhile (fun c => c != ')')
        if r3.head? = some ')' then
          let r5 := r3.tail.dropWhile isJsWs
          if r5.head? = some '\x7b' then some (content, r5.tail)
          else none
        else none
    else none
  else none

/-- Leftmost match of the scope-head regex in a suffix (the search performed
by `scopeHeadRegex.exec`). -/
def findScopeHead : List Char → Option (List Char × List Char)
  | [] => none
  | c :: rest =>
    match matchScopeHead (c :: rest) with
    | some r => some r
    | none => findScopeHead rest

/-- Fuelled `while ((match = scopeHeadRegex.exec(cleanCss)) !== null)` loop
of `parseAndTransform` (src/unnamed/part_001 lines 140-150): for each head,
trim the captured root selector, match the body braces starting just after
the head's opening brace, push the transformed body when the brace matched,
and always resume the regex search at the head match's end. -/
def scopeAux : Nat → List Char → List (List Char)
  | 0, _ => []
  | fuel + 1, clean =>
    match findScopeHead clean with
    | none => []
    | some (content, afterHead) =>
      let scopeRootSelector := jsTrim content
      (match braceScan afterHead 1 with
       | some k => [processBlock (afterHead.take k) scopeRootSelector]
       | none => []) ++ scopeAux fuel afterHead

/-- The list `extractedRules` built by `parseAndTransform` on the
comment-stripped text. -/
def extractedScopeRules (cssText : List Char) : List (List Char) :=
  let cleanCss := stripComments cssText
  scopeAux (cleanCss.length + 1) cleanCss

/-- `parseAndTransform(cssText)` (src/unnamed/part_001 lines 132-152):
strip comments, extract and transform every scope block, then return the
newline join of the per-block outputs, or `none` (the source's `null`) when
no block was extracted. -/
def parseAndTransform (cssText : List Char) : Option (List Char) :=
  let extractedRules := extractedScopeRules cssText
  if extractedRules = [] then none else some (joinSep ['\n'] extractedRules)


/-! ### Basic facts about the character-scanning helpers -/

theorem hasChar_append_cons (h t : List Char) (c : Char) :
    hasChar c (h ++ c :: t) = true := by
  induction h with
  | nil => simp [hasChar]
  | cons a h ih => simp [hasChar, ih]

theorem beforeChar_append_cons (h t : List Char) (c : Char)
    (hh : ∀ a ∈ h, a ≠ c) : beforeChar c (h ++ c :: t) = h := by
  induction h with
  | nil => simp [beforeChar]
  | cons a h ih =>
    have ha : a ≠ c := hh a (by simp)
    have ih2 := ih (fun x hx => hh x (by simp [hx]))
    simp [beforeChar, ha, ih2]

theorem afterChar_append_cons (h t : List Char) (c : Char)
    (hh : ∀ a ∈ h, a ≠ c) : afterChar c (h ++ c :: t) = t := by
  induction h with
  | nil => simp [afterChar]
  | cons a h ih =>
    have ha : a ≠ c := hh a (by simp)
    have ih2 := ih (fun x hx => hh x (by simp [hx]))
    simp [afterChar, ha, ih2]

theorem afterChar_length_lt (c : Char) (cs : List Char)
    (hc : hasChar c cs = true) : (afterChar c cs).length < cs.length := by
  induction cs with
  | nil => simp [hasChar] at hc
  | cons a t ih =>
    by_cases ha : a = c
    · simp [afterChar, ha]
    · simp only [hasChar, Bool.or_eq_true, beq_iff_eq] at hc
      rcases hc with hc | hc
      · exact absurd hc ha
      · simp only [afterChar, beq_iff_eq, if_neg ha, List.length_cons]
        exact Nat.lt_succ_of_lt (ih hc)

/-! ### Facts about the brace scanner -/

theorem braceScan_lt (cs : List Char) :
    ∀ d k, braceScan cs d = some k → k < cs.length := by
  induction cs with
  | nil => intro d k hk; simp [braceScan] at hk
  | cons c rest ih =>
    intro d k hk
    simp only [braceScan] at hk
    by_cases hd : d + charDelta c = 0
    · rw [if_pos hd] at hk
      simp only [Option.some.injEq] at hk
      simp [← hk]
    · rw [if_neg hd] at hk
      cases hrec : braceScan rest (d + charDelta c) with
      | none => rw [hrec] at hk; simp at hk
      | some m =>
        rw [hrec] at hk
        simp only [Option.map_some', Option.some.injEq] at hk
        have := ih _ _ hrec
        simp only [List.length_cons]
        omega

theorem braceDelta_take_succ (c : Char) (b : List Char) (n : Nat) :
    braceDelta ((c :: b).take (n + 1)) = charDelta c + braceDelta (b.take n) := by
  simp [List.take_succ_cons, braceDelta]

theorem braceScan_append (b : List Char) :
    ∀ (rest : List Char) (d : Int),
    (∀ n, n < b.length → d + braceDelta (b.take n.succ) ≠ 0) →
    braceScan (b ++ rest) d = (braceScan rest (d + braceDelta b)).map (· + b.length) := by
  induction b with
  | nil =>
    intro rest d _
    simp only [List.nil_append, braceDelta, List.length_nil, Int.add_zero]
    cases braceScan rest d <;> simp
  | cons c b ih =>
    intro rest d hpre
    have h0 : d + charDelta c ≠ 0 := by
      have h1 := hpre 0 (by simp)
      rw [Nat.succ_eq_add_one, Nat.zero_add, braceDelta_take_succ] at h1
      simpa [braceDelta] using h1
    have ihh := ih rest (d + charDelta c) (fun n hn => by
      have h1 := hpre (n + 1) (by simp only [List.length_cons]; omega)
      rw [Nat.succ_eq_add_one, braceDelta_take_succ] at h1
      rw [Nat.succ_eq_add_one]
      intro hcontra
      exact h1 (by omega))
    have harg : d + charDelta c + braceDelta b = d + braceDelta (c :: b) := by
      simp only [braceDelta]; ring
    simp only [List.cons_append, braceScan, if_neg h0, List.append_eq]
    rw [ihh, harg]
    cases braceScan rest (d + braceDelta (c :: b)) with
    | none => simp
    | some m => simp only [Option.map_map, Option.map_some']
                simp [Function.comp, List.length_cons]; omega

theorem braceScan_balanced (b rest : List Char) (hb : BalancedBraces b) :
    braceScan (b ++ '\x7d' :: rest) 1 = some b.length := by
  obtain ⟨hz, hpre⟩ := hb
  rw [braceScan_append b ('\x7d' :: rest) 1 ?_]
  · rw [hz]
    have hdel : charDelta '\x7d' = -1 := by decide
    simp [braceScan, hdel]
  · intro n hn
    have := hpre n hn
    omega

/-! ### Fuel-independence (termination) of the block walker -/

theorem processBlockAux_fuel (root : List Char) :
    ∀ f g cs, cs.length < f → cs.length < g →
      processBlockAux root f cs = processBlockAux root g cs := by
  intro f
  induction f with
  | zero => intro g cs hf; omega
  | succ f ih =>
    intro g cs hf hg
    obtain ⟨g', rfl⟩ : ∃ g', g = g' + 1 := ⟨g - 1, by omega⟩
    simp only [processBlockAux]
    by_cases hc : hasChar '\x7b' cs
    · rw [if_pos hc, if_pos hc]
      cases hbs : braceScan (afterChar '\x7b' cs) 1 with
      | none => rfl
      | some k =>
        have hpost : (afterChar '\x7b' cs).length < cs.length :=
          afterChar_length_lt _ _ hc
        have hk : k < (afterChar '\x7b' cs).length := braceScan_lt _ _ _ hbs
        have hbody : ((afterChar '\x7b' cs).take k).length < f := by
          simp only [List.length_take]; omega
        have hrest : ((afterChar '\x7b' cs).drop (k + 1)).length < f := by
          simp only [List.length_drop]; omega
        have e1 := ih g' ((afterChar '\x7b' cs).take k) hbody (by
          simp only [List.length_take]; omega)
        have e2 := ih g' ((afterChar '\x7b' cs).drop (k + 1)) hrest (by
          simp only [List.length_drop]; omega)
        simp only [e1, e2]
    · rw [if_neg hc, if_neg hc]

theorem processBlockAux_eq_processBlock (root : List Char) (f : Nat)
    (cs : List Char) (hf : cs.length < f) :
    processBlockAux root f cs = processBlock cs root :=
  processBlockAux_fuel root f (cs.length + 1) cs hf (by omega)

theorem drop_length_succ_append (b : List Char) (x : Char) (t : List Char) :
    (b ++ x :: t).drop (b.length + 1) = t := by
  induction b with
  | nil => simp
  | cons a b ih =>
    simp only [List.cons_append, List.length_cons, List.drop_succ_cons]
    exact ih

/-- One full iteration of the `processBlock` cursor loop on a well-formed
leading construct `header \x7b body \x7d`: the construct is classified from
its trimmed header, the corresponding text is emitted, and the walk
continues after the closing brace. -/
theorem processBlock_step (h b rest root : List Char)
    (hh : ∀ a ∈ h, a ≠ '\x7b') (hb : BalancedBraces b) :
    processBlock (h ++ '\x7b' :: (b ++ '\x7d' :: rest)) root =
      (if startsWithAt (jsTrim h) then
         if isDefinitionRule (jsTrim h) then
           jsTrim h ++ (" \x7b".data) ++ b ++ ("\x7d\n".data)
         else
           jsTrim h ++ (" \x7b\n".data) ++ processBlock b root ++ ("\n\x7d\n".data)
       else
         if rewriteSelector (jsTrim h) root = [] then []
         else rewriteSelector (jsTrim h) root ++ (" \x7b".data) ++ b ++ ("\x7d\n".data))
      ++ processBlock rest root := by
  have hhas : hasChar '\x7b' (h ++ '\x7b' :: (b ++ '\x7d' :: rest)) = true :=
    hasChar_append_cons _ _ _
  have hbef : beforeChar '\x7b' (h ++ '\x7b' :: (b ++ '\x7d' :: rest)) = h :=
    beforeChar_append_cons _ _ _ hh
  have haft : afterChar '\x7b' (h ++ '\x7b' :: (b ++ '\x7d' :: rest)) = b ++ '\x7d' :: rest :=
    afterChar_append_cons _ _ _ hh
  have hscan : braceScan (b ++ '\x7d' :: rest) 1 = some b.length :=
    braceScan_balanced _ _ hb
  have htake : (b ++ '\x7d' :: rest).take b.length = b := List.take_left _ _
  have hdrop : (b ++ '\x7d' :: rest).drop (b.length + 1) = rest :=
    drop_length_succ_append _ _ _
  have hlen1 : b.length < (h ++ '\x7b' :: (b ++ '\x7d' :: rest)).length := by
    simp [List.length_append]; omega
  have hlen2 : rest.length < (h ++ '\x7b' :: (b ++ '\x7d' :: rest)).length := by
    simp [List.length_append]; omega
  have hstart : processBlock (h ++ '\x7b' :: (b ++ '\x7d' :: rest)) root =
      processBlockAux root ((h ++ '\x7b' :: (b ++ '\x7d' :: rest)).length + 1)
        (h ++ '\x7b' :: (b ++ '\x7d' :: rest)) := rfl
  rw [hstart]
  simp only [processBlockAux, hhas, if_true, hbef, haft, hscan, htake, hdrop]
  rw [processBlockAux_eq_processBlock root _ b hlen1,
      processBlockAux_eq_processBlock root _ rest hlen2]

/-- The `processBlock` walk on a body whose first opening brace has no
matching closing brace: the loop breaks, the result is empty. -/
theorem processBlock_unmatched (p q root : List Char)
    (hp : ∀ a ∈ p, a ≠ '\x7b') (hq : braceScan q 1 = none) :
    processBlock (p ++ '\x7b' :: q) root = [] := by
  have hhas : hasChar '\x7b' (p ++ '\x7b' :: q) = true := hasChar_append_cons _ _ _
  have haft : afterChar '\x7b' (p ++ '\x7b' :: q) = q := afterChar_append_cons _ _ _ hp
  unfold processBlock
  simp only [processBlockAux, hhas, if_true, haft, hq]

/-! ### Facts about the balanced comma splitter -/

theorem joinSep_cons (sep x : List Char) (xs : List (List Char)) :
    joinSep sep (x :: xs) = x ++ (if xs = [] then [] else sep ++ joinSep sep xs) := by
  cases xs <;> simp [joinSep]

theorem splitAux_eq_nil_iff :
    ∀ (cs : List Char) (prev : Option Char) (depth : Int) (inString : Bool)
      (stringChar : Char) (buffer : List Char),
    splitAux cs prev depth inString stringChar buffer = [] ↔
      (buffer = [] ∧ cs = []) := by
  intro cs
  induction cs with
  | nil =>
    intro prev depth inString stringChar buffer
    by_cases hb : buffer = [] <;> simp [splitAux, hb]
  | cons c rest ih =>
    intro prev depth inString stringChar buffer
    simp only [splitAux]
    split
    · simp
    · simp [ih]

/-- Reconstruction: rejoining the split elements with a comma gives back the
input, except that one trailing separator comma may have been consumed (its
empty final buffer is not emitted). -/
theorem splitAux_join :
    ∀ (cs : List Char) (prev : Option Char) (depth : Int) (inString : Bool)
      (stringChar : Char) (buffer : List Char),
    joinSep [','] (splitAux cs prev depth inString stringChar buffer) = buffer ++ cs ∨
    joinSep [','] (splitAux cs prev depth inString stringChar buffer) ++ [','] =
      buffer ++ cs := by
  intro cs
  induction cs with
  | nil =>
    intro prev depth inString stringChar buffer
    by_cases hb : buffer = [] <;> simp [splitAux, hb, joinSep]
  | cons c rest ih =>
    intro prev depth inString stringChar buffer
    simp only [splitAux]
    split
    · rename_i hcond
      obtain ⟨hc, -, -⟩ := hcond
      subst hc
      rw [joinSep_cons]
      split
      · rename_i hps
        have hrest : rest = [] := ((splitAux_eq_nil_iff _ _ _ _ _ _).mp hps).2
        subst hrest
        right; simp
      · rename_i hps
        rcases ih (some ',') _ _ _ [] with h1 | h1
        · left; rw [h1]; simp
        · right
          simp only [List.append_assoc, List.cons_append, List.nil_append] at h1 ⊢
          rw [h1]
    · rcases ih (some c) _ _ _ (buffer ++ [c]) with h1 | h1
      · left; rw [h1]; simp
      · right; rw [h1]; simp

/-! ### Characterisation of the brace scanner (first zero of the running depth) -/

theorem braceScan_some_iff (cs : List Char) :
    ∀ (d : Int) (k : Nat),
    braceScan cs d = some k ↔
      (k < cs.length ∧ d + braceDelta (cs.take (k + 1)) = 0 ∧
        ∀ j, j < k → d + braceDelta (cs.take (j + 1)) ≠ 0) := by
  induction cs with
  | nil => intro d k; simp [braceScan]
  | cons c rest ih =>
    intro d k
    have htake1 : braceDelta ((c :: rest).take 1) = charDelta c := by
      simp [braceDelta]
    simp only [braceScan]
    by_cases hd : d + charDelta c = 0
    · rw [if_pos hd]
      constructor
      · intro hk
        have hk0 : k = 0 := by
          have := Option.some.inj hk; omega
        subst hk0
        refine ⟨by simp, by rw [htake1]; exact hd, by omega⟩
      · rintro ⟨hlen, hzero, hfirst⟩
        cases k with
        | zero => rfl
        | succ m =>
          exact absurd (by rw [htake1]; exact hd) (hfirst 0 (by omega))
    · rw [if_neg hd]
      constructor
      · intro hk
        cases hmap : braceScan rest (d + charDelta c) with
        | none => rw [hmap] at hk; simp at hk
        | some m =>
          rw [hmap] at hk
          simp only [Option.map_some', Option.some.injEq] at hk
          obtain ⟨hmlen, hmzero, hmfirst⟩ := (ih _ m).mp hmap
          refine ⟨by simp; omega, ?_, ?_⟩
          · rw [← hk, braceDelta_take_succ]
            omega
          · intro j hj
            cases j with
            | zero => rw [htake1]; exact hd
            | succ j2 =>
              have := hmfirst j2 (by omega)
              rw [braceDelta_take_succ]
              intro hcontra
              exact this (by omega)
      · rintro ⟨hlen, hzero, hfirst⟩
        cases k with
        | zero =>
          exact absurd (by rw [htake1] at hzero; exact hzero) hd
        | succ m =>
          have hm : braceScan rest (d + charDelta c) = some m := by
            refine (ih _ m).mpr ⟨by simp at hlen; omega, ?_, ?_⟩
            · rw [braceDelta_take_succ] at hzero; omega
            · intro j hj
              have := hfirst (j + 1) (by omega)
              rw [braceDelta_take_succ] at this
              intro hcontra
              exact this (by omega)
          rw [hm]; rfl

theorem braceScan_none_iff (cs : List Char) :
    ∀ (d : Int),
    braceScan cs d = none ↔
      ∀ j, j < cs.length → d + braceDelta (cs.take (j + 1)) ≠ 0 := by
  induction cs with
  | nil => intro d; simp [braceScan]
  | cons c rest ih =>
    intro d
    have htake1 : braceDelta ((c :: rest).take 1) = charDelta c := by
      simp [braceDelta]
    simp only [braceScan]
    by_cases hd : d + charDelta c = 0
    · rw [if_pos hd]
      constructor
      · intro hk; exact absurd hk (by simp)
      · intro hall
        exact absurd (by rw [htake1]; exact hd) (hall 0 (by simp))
    · rw [if_neg hd]
      constructor
      · intro hk
        have hnone : braceScan rest (d + charDelta c) = none := by
          cases hmap : braceScan rest (d + charDelta c) with
          | none => rfl
          | some m => rw [hmap] at hk; simp at hk
        intro j hj
        cases j with
        | zero => rw [htake1]; exact hd
        | succ j2 =>
          have := (ih _).mp hnone j2 (by simp at hj; omega)
          rw [braceDelta_take_succ]
          intro hcontra
          exact this (by omega)
      · intro hall
        have hnone : braceScan rest (d + charDelta c) = none := by
          refine (ih _).mpr ?_
          intro j hj
          have := hall (j + 1) (by simp; omega)
          rw [braceDelta_take_succ] at this
          intro hcontra
          exact this (by omega)
        rw [hnone]; rfl

/-! ### Claim theorems -/

/-- Claim C8: for every text and opening-brace index, `findClosingBrace`
returns the first index after the opening brace at which the running depth —
starting at 1 just after the opening brace, incremented on each subsequent
opening brace and decremented on each closing brace, counting braces inside
quoted strings as structural — reaches 0, and returns `-1` when no such
index exists before the end of the text. -/
theorem findClosingBrace_first_zero_depth (text : List Char) (openIdx : Nat) :
    (∀ i : Nat, findClosingBrace text openIdx = (i : Int) ↔
      (openIdx < i ∧ i < text.length ∧ depthRun text openIdx i = 0 ∧
        ∀ j, j < i → openIdx < j → depthRun text openIdx j ≠ 0)) ∧
    (findClosingBrace text openIdx = -1 ↔
      ∀ j, j < text.length → openIdx < j → depthRun text openIdx j ≠ 0) := by
  have hlen : (text.drop (openIdx + 1)).length = text.length - (openIdx + 1) :=
    List.length_drop _ _
  have hdr : ∀ j : Nat, depthRun text openIdx j =
      1 + braceDelta ((text.drop (openIdx + 1)).take (j - openIdx)) := fun _ => rfl
  cases hs : braceScan (text.drop (openIdx + 1)) 1 with
  | some k =>
    have hM : findClosingBrace text openIdx = ((openIdx + 1 + k : Nat) : Int) := by
      unfold findClosingBrace; rw [hs]
    obtain ⟨hk, hz, hf⟩ := (braceScan_some_iff _ 1 k).mp hs
    rw [hM]
    constructor
    · intro i
      constructor
      · intro hi
        have hik : openIdx + 1 + k = i := by exact_mod_cast hi
        refine ⟨by omega, by omega, ?_, ?_⟩
        · rw [hdr]
          have he : i - openIdx = k + 1 := by omega
          rw [he]; exact hz
        · intro j hj hoj
          rw [hdr]
          have he : j - openIdx = (j - openIdx - 1) + 1 := by omega
          rw [he]
          exact hf (j - openIdx - 1) (by omega)
      · rintro ⟨h1, h2, h3, h4⟩
        have : openIdx + 1 + k = i := by
          by_contra hne
          rcases Nat.lt_or_ge (openIdx + 1 + k) i with hlt | hge
          · have h5 := h4 (openIdx + 1 + k) hlt (by omega)
            rw [hdr] at h5
            have he : openIdx + 1 + k - openIdx = k + 1 := by omega
            rw [he] at h5
            exact h5 hz
          · have hf2 := hf (i - openIdx - 1) (by omega)
            rw [hdr] at h3
            have he : i - openIdx = (i - openIdx - 1) + 1 := by omega
            rw [he] at h3
            exact hf2 h3
        exact_mod_cast this
    · constructor
      · intro hcontra
        exact absurd hcontra (by omega)
      · intro hall
        have h6 := hall (openIdx + 1 + k) (by omega) (by omega)
        rw [hdr] at h6
        have he : openIdx + 1 + k - openIdx = k + 1 := by omega
        rw [he] at h6
        exact absurd hz h6
  | none =>
    have hM : findClosingBrace text openIdx = -1 := by
      unfold findClosingBrace; rw [hs]
    have hnone := (braceScan_none_iff _ 1).mp hs
    rw [hM]
    constructor
    · intro i
      constructor
      · intro hi
        exact absurd hi (by omega)
      · rintro ⟨h1, h2, h3, h4⟩
        exfalso
        have h7 := hnone (i - openIdx - 1) (by omega)
        rw [hdr] at h3
        have he : i - openIdx = (i - openIdx - 1) + 1 := by omega
        rw [he] at h3
        exact h7 h3
    · constructor
      · intro _ j hj hoj
        rw [hdr]
        have he : j - openIdx = (j - openIdx - 1) + 1 := by omega
        rw [he]
        exact hnone (j - openIdx - 1) (by omega)
      · intro _; rfl

theorem findClosingBrace_first_zero_depth_witness :
    findClosingBrace ("a\x7bb\x7dc".data) 1 = (3 : Nat) :=
  ((findClosingBrace_first_zero_depth ("a\x7bb\x7dc".data) 1).1 3).mpr
    (by refine ⟨by decide, by decide, by decide, ?_⟩; decide)

/-- Claim C10: termination of the walkers.  A matched closing brace lies
strictly after its opening brace and within the text; the block body and the
continuation handed to the recursive calls of `processBlock` are strictly
shorter than the current input; and `processBlockAux` is insensitive to its
fuel once the fuel exceeds the input length, i.e. the cursor loop of
`processBlock` (and with it `findClosingBrace`, which scans at most to the
end of the text) terminates within a number of steps bounded by the input
length. -/
theorem processBlock_termination_bounds :
    (∀ (cs : List Char) (d : Int) (k : Nat),
       braceScan cs d = some k → k < cs.length) ∧
    (∀ (text : List Char) (openIdx i : Nat),
       findClosingBrace text openIdx = (i : Int) →
       openIdx < i ∧ i < text.length) ∧
    (∀ (cs : List Char) (k : Nat), hasChar '\x7b' cs = true →
       braceScan (afterChar '\x7b' cs) 1 = some k →
       ((afterChar '\x7b' cs).take k).length < cs.length ∧
       ((afterChar '\x7b' cs).drop (k + 1)).length < cs.length) ∧
    (∀ (root : List Char) (f g : Nat) (cs : List Char),
       cs.length < f → cs.length < g →
       processBlockAux root f cs = processBlockAux root g cs) := by
  refine ⟨fun cs => braceScan_lt cs, ?_, ?_, ?_⟩
  · intro text openIdx i hi
    have hlen : (text.drop (openIdx + 1)).length = text.length - (openIdx + 1) :=
      List.length_drop _ _
    cases hs : braceScan (text.drop (openIdx + 1)) 1 with
    | none =>
      have hM : findClosingBrace text openIdx = -1 := by
        unfold findClosingBrace; rw [hs]
      rw [hM] at hi
      exact absurd hi (by omega)
    | some k =>
      have hM : findClosingBrace text openIdx = ((openIdx + 1 + k : Nat) : Int) := by
        unfold findClosingBrace; rw [hs]
      rw [hM] at hi
      have hik : openIdx + 1 + k = i := by exact_mod_cast hi
      have hk := braceScan_lt _ _ _ hs
      omega
  · intro cs k hcs hbs
    have hp := afterChar_length_lt '\x7b' cs hcs
    have hk := braceScan_lt _ _ _ hbs
    constructor
    · simp only [List.length_take]; omega
    · simp only [List.length_drop]; omega
  · intro root f g cs
    exact processBlockAux_fuel root f g cs

theorem processBlock_termination_bounds_witness :
    (1 < 3 ∧ 3 < ("a\x7bb\x7dc".data).length) ∧
    processBlockAux (".r".data) 6 ("a\x7bb\x7d".data) =
      processBlockAux (".r".data) 9 ("a\x7bb\x7d".data) :=
  ⟨processBlock_termination_bounds.2.1 ("a\x7bb\x7dc".data) 1 3 (by decide),
   processBlock_termination_bounds.2.2.2 (".r".data) 6 9 ("a\x7bb\x7d".data)
     (by decide) (by decide)⟩

/-- Claim C4: for a top-level construct whose (trimmed) header starts with
an at-sign: when the header matches keyframes or font-face
case-insensitively, `processBlock` emits the header and the inner content
unchanged (the body text `b` — which may freely contain braces, ampersands
or scope placeholders — is reproduced verbatim and never selector-rewritten);
otherwise the header is emitted unchanged around the recursive
transformation of the inner content under the same root selector.  In both
cases the at-rule header itself is never rewritten, and the walk continues
after the construct. -/
theorem processBlock_at_rule_classification (h b rest root : List Char)
    (hh : ∀ a ∈ h, a ≠ '\x7b') (hb : BalancedBraces b)
    (hat : startsWithAt (jsTrim h) = true) :
    processBlock (h ++ '\x7b' :: (b ++ '\x7d' :: rest)) root =
      (if isDefinitionRule (jsTrim h) then
         jsTrim h ++ (" \x7b".data) ++ b ++ ("\x7d\n".data)
       else
         jsTrim h ++ (" \x7b\n".data) ++ processBlock b root ++ ("\n\x7d\n".data))
      ++ processBlock rest root := by
  rw [processBlock_step h b rest root hh hb, if_pos hat]

theorem processBlock_at_rule_classification_witness :
    processBlock (("@keyframes spin ".data) ++ '\x7b' ::
        (("from \x7b o:0; & :scope \x7d".data) ++ '\x7d' :: [])) (".card".data) =
      (if isDefinitionRule (jsTrim ("@keyframes spin ".data)) then
         jsTrim ("@keyframes spin ".data) ++ (" \x7b".data) ++
           ("from \x7b o:0; & :scope \x7d".data) ++ ("\x7d\n".data)
       else
         jsTrim ("@keyframes spin ".data) ++ (" \x7b\n".data) ++
           processBlock ("from \x7b o:0; & :scope \x7d".data) (".card".data) ++
           ("\n\x7d\n".data))
      ++ processBlock [] (".card".data) :=
  processBlock_at_rule_classification _ _ _ _ (by decide) (by decide) (by decide)

/-- Claim C9: a body text consisting of a fully-formed construct followed by
text whose first opening brace has no matching closing brace: the walk emits
the fully-formed construct, then stops at the unmatched brace without
raising an error (the function is total), producing best-effort partial
output rather than an aborted transformation. -/
theorem processBlock_unmatched_brace_partial_output (h b p q root : List Char)
    (hh : ∀ a ∈ h, a ≠ '\x7b') (hb : BalancedBraces b)
    (hp : ∀ a ∈ p, a ≠ '\x7b') (hq : braceScan q 1 = none) :
    processBlock (h ++ '\x7b' :: (b ++ '\x7d' :: (p ++ '\x7b' :: q))) root =
      (if startsWithAt (jsTrim h) then
         if isDefinitionRule (jsTrim h) then
           jsTrim h ++ (" \x7b".data) ++ b ++ ("\x7d\n".data)
         else
           jsTrim h ++ (" \x7b\n".data) ++ processBlock b root ++ ("\n\x7d\n".data)
       else
         if rewriteSelector (jsTrim h) root = [] then []
         else rewriteSelector (jsTrim h) root ++ (" \x7b".data) ++ b ++ ("\x7d\n".data)) := by
  rw [processBlock_step h b (p ++ '\x7b' :: q) root hh hb,
      processBlock_unmatched p q root hp hq, List.append_nil]

theorem processBlock_unmatched_brace_partial_output_witness :
    processBlock (("a ".data) ++ '\x7b' ::
        (("c:1;".data) ++ '\x7d' :: ((" d ".data) ++ '\x7b' :: (" e ".data)))) (".r".data) =
      (if startsWithAt (jsTrim ("a ".data)) then
         if isDefinitionRule (jsTrim ("a ".data)) then
           jsTrim ("a ".data) ++ (" \x7b".data) ++ ("c:1;".data) ++ ("\x7d\n".data)
         else
           jsTrim ("a ".data) ++ (" \x7b\n".data) ++
             processBlock ("c:1;".data) (".r".data) ++ ("\n\x7d\n".data)
       else
         if rewriteSelector (jsTrim ("a ".data)) (".r".data) = [] then []
         else rewriteSelector (jsTrim ("a ".data)) (".r".data) ++ (" \x7b".data) ++
           ("c:1;".data) ++ ("\x7d\n".data)) :=
  processBlock_unmatched_brace_partial_output _ _ _ _ _
    (by decide) (by decide) (by decide) (by decide)

/-! ### Selector rewriting -/

theorem hasChar_append (c : Char) (a b : List Char) :
    hasChar c (a ++ b) = (hasChar c a || hasChar c b) := by
  induction a with
  | nil => simp [hasChar]
  | cons x t ih => simp [hasChar, ih, Bool.or_assoc]

theorem splitAux_no_comma :
    ∀ (cs : List Char) (prev : Option Char) (depth : Int) (inString : Bool)
      (stringChar : Char) (buffer : List Char),
    hasChar ',' cs = false →
    splitAux cs prev depth inString stringChar buffer =
      if buffer ++ cs = [] then [] else [buffer ++ cs] := by
  intro cs
  induction cs with
  | nil =>
    intro prev depth inString stringChar buffer _
    simp [splitAux]
  | cons c rest ih =>
    intro prev depth inString stringChar buffer hc
    simp only [hasChar, Bool.or_eq_false_iff, beq_eq_false_iff_ne] at hc
    obtain ⟨hc1, hc2⟩ := hc
    have hcond : ¬(c = ',' ∧ (splitStep c prev depth inString stringChar).1 = 0 ∧
        ¬(splitStep c prev depth inString stringChar).2.1 = true) :=
      fun hx => hc1 hx.1
    simp only [splitAux, if_neg hcond]
    rw [ih _ _ _ _ _ (by simpa using hc2)]
    have hne1 : buffer ++ [c] ++ rest ≠ [] := by simp
    have hne2 : buffer ++ c :: rest ≠ [] := by simp
    rw [if_neg hne1, if_neg hne2]
    simp

theorem splitByCommaBalanced_single (line : List Char)
    (hc : hasChar ',' line = false) (hne : line ≠ []) :
    splitByCommaBalanced line = [line] := by
  unfold splitByCommaBalanced
  rw [splitAux_no_comma _ _ _ _ _ _ hc]
  simp [hne]

theorem rewriteSelector_single (line root : List Char)
    (hs : splitByCommaBalanced line = [line]) (hne : jsTrim line ≠ []) :
    rewriteSelector line root = rewriteOnePart root line := by
  unfold rewriteSelector
  rw [if_neg hne, hs]
  simp [joinSep]

/-- Claim C6: for a single selector — any line that the program's own
balanced splitter leaves whole, so selectors with parenthesized or quoted
commas such as `:is(.a, .b) &` are covered — whose trimmed text does not
contain the literal scope placeholder: if it contains the nesting
placeholder, every occurrence of the ampersand is replaced by the root
selector (and the descendant-prefix rule is not also applied — the result is
exactly the substitution); if it contains neither placeholder, the result is
exactly the root selector, a single space, and the trimmed selector.  The
final conjunct expresses that the substitution really replaces every
occurrence: no ampersand survives when the root itself has none. -/
theorem rewriteSelector_nesting_and_descendant_rules (line root : List Char)
    (hsingle : splitByCommaBalanced line = [line])
    (hne : jsTrim line ≠ [])
    (hscope : includesSub (jsTrim line) (":scope".data) = false) :
    (hasChar '&' (jsTrim line) = true →
       rewriteSelector line root = replaceAmp (jsTrim line) root) ∧
    (hasChar '&' (jsTrim line) = false →
       rewriteSelector line root = root ++ ' ' :: jsTrim line) ∧
    (∀ s : List Char, hasChar '&' root = false →
       hasChar '&' (replaceAmp s root) = false) := by
  have heq := rewriteSelector_single line root hsingle hne
  refine ⟨?_, ?_, ?_⟩
  · intro hamp
    rw [heq]
    unfold rewriteOnePart
    simp [hscope, hamp]
  · intro hamp
    rw [heq]
    unfold rewriteOnePart
    simp [hscope, hamp]
  · intro s hroot
    induction s with
    | nil => simp [replaceAmp, hasChar]
    | cons c rest ih =>
      simp only [replaceAmp, hasChar_append, ih, Bool.or_false]
      by_cases hc : c = '&'
      · simp [hc, hroot]
      · simp [hc, hasChar]

theorem rewriteSelector_nesting_and_descendant_rules_witness :
    rewriteSelector (":is(.a, .b) &".data) (".r".data) =
        replaceAmp (jsTrim (":is(.a, .b) &".data)) (".r".data) ∧
    rewriteSelector (":is(.a, .b) em".data) (".r".data) =
        (".r".data) ++ ' ' :: jsTrim (":is(.a, .b) em".data) :=
  ⟨(rewriteSelector_nesting_and_descendant_rules (":is(.a, .b) &".data) (".r".data)
      (by decide) (by decide) (by decide)).1 (by decide),
   (rewriteSelector_nesting_and_descendant_rules (":is(.a, .b) em".data) (".r".data)
      (by decide) (by decide) (by decide)).2.1 (by decide)⟩

/-- Claim C2, counterexample: the scope-root rule of the current source
(src/unnamed/part_001) is guarded by `includes(':scope')`, a literal check
without interior whitespace, so the selector `: scope` — which contains the
placeholder with interior whitespace — is NOT handled by the scope-root rule:
it falls through to the implicit-descendant rule and the placeholder survives
unreplaced in the output.  The v1.0 variant additionally accepts the
single-space spelling but likewise misses the two-space spelling. -/
theorem rewriteSelector_interior_whitespace_scope_counterexample :
    rewriteSelector (": scope".data) (".card".data) = (".card : scope".data) ∧
    includesSub (rewriteSelector (": scope".data) (".card".data)) (": scope".data) = true ∧
    rewriteSelectorV1 (":  scope".data) (".card".data) = (".card :  scope".data) := by
  refine ⟨by decide, by decide, by decide⟩

/-- Claim C2, amended: for a single selector — any line the program's own
balanced splitter leaves whole, covering parenthesized and quoted commas
such as `:is(.a, .b) :scope` — the scope-root rule fires iff the trimmed
selector contains the literal `:scope` (colon immediately followed by the
keyword): when it does, every occurrence of colon + whitespace-run + keyword
— including interior-whitespace variants — is replaced by the root selector
verbatim and no other rewrite rule is applied; when it does not, the
selector falls through to the nesting or descendant rule and the scope-root
substitution is not applied. -/
theorem rewriteSelector_literal_scope_guard (line root : List Char)
    (hsingle : splitByCommaBalanced line = [line])
    (hne : jsTrim line ≠ []) :
    (includesSub (jsTrim line) (":scope".data) = true →
       rewriteSelector line root = replaceScope (jsTrim line) root) ∧
    (includesSub (jsTrim line) (":scope".data) = false →
       rewriteSelector line root =
         (if hasChar '&' (jsTrim line) then replaceAmp (jsTrim line) root
          else root ++ ' ' :: jsTrim line)) := by
  have heq := rewriteSelector_single line root hsingle hne
  constructor
  · intro hscope
    rw [heq]
    unfold rewriteOnePart
    simp [hscope]
  · intro hscope
    rw [heq]
    unfold rewriteOnePart
    by_cases hamp : hasChar '&' (jsTrim line) = true
    · simp [hscope, hamp]
    · simp [hscope, hamp]

theorem rewriteSelector_literal_scope_guard_witness :
    rewriteSelector (":is(.a, .b) :scope".data) (".r".data) =
        replaceScope (jsTrim (":is(.a, .b) :scope".data)) (".r".data) ∧
    replaceScope (jsTrim (":is(.a, .b) :scope".data)) (".r".data) =
        (":is(.a, .b) .r".data) ∧
    rewriteSelector (":scope > : scope".data) (".r".data) =
        replaceScope (jsTrim (":scope > : scope".data)) (".r".data) ∧
    replaceScope (jsTrim (":scope > : scope".data)) (".r".data) = (".r > .r".data) :=
  ⟨(rewriteSelector_literal_scope_guard (":is(.a, .b) :scope".data) (".r".data)
      (by decide) (by decide)).1 (by decide),
   by decide,
   (rewriteSelector_literal_scope_guard (":scope > : scope".data) (".r".data)
      (by decide) (by decide)).1 (by decide),
   by decide⟩

/-- Claim C3, counterexample: empty elements of the split selector list are
not dropped.  `a,,b` splits into three elements, the middle one empty; the
empty element is rewritten by the implicit-descendant rule to the root
selector followed by a space and appears in the joined output, so the result
is not the two-element join the claim requires.  Similarly a selector list
consisting only of a comma rewrites to root-plus-space, not to the empty
string, and the rule is emitted rather than dropped. -/
theorem rewriteSelector_empty_elements_counterexample :
    rewriteSelector ("a,,b".data) (".r".data) = (".r a, .r , .r b".data) ∧
    rewriteSelector ("a,,b".data) (".r".data) ≠ (".r a, .r b".data) ∧
    rewriteSelector (",".data) (".r".data) = (".r ".data) ∧
    processBlock (", \x7bc:1\x7d".data) (".r".data) = (".r  \x7bc:1\x7d\n".data) := by
  refine ⟨by decide, by decide, by decide, by decide⟩

/-- Claim C3, amended: `rewriteSelector` maps every element of the split
list — empty elements included — through the per-element rewrite and joins
all results with a comma-space separator, without filtering; an empty or
whitespace-only element rewrites to the root selector followed by a single
space (not to the empty string).  Only a selector line that is entirely
empty or whitespace rewrites to the empty string (and only then does
`processBlock` drop the rule). -/
theorem rewriteSelector_keeps_empty_elements (line root : List Char) :
    (jsTrim line = [] → rewriteSelector line root = []) ∧
    (∀ p, jsTrim p = [] → rewriteOnePart root p = root ++ [' ']) ∧
    (jsTrim line ≠ [] →
       rewriteSelector line root =
         joinSep (", ".data) ((splitByCommaBalanced line).map (rewriteOnePart root))) := by
  refine ⟨?_, ?_, ?_⟩
  · intro h; simp [rewriteSelector, h]
  · intro p hp
    unfold rewriteOnePart
    rw [hp]
    simp [includesSub, leadsWith, hasChar]
  · intro h; simp [rewriteSelector, h]

theorem rewriteSelector_keeps_empty_elements_witness :
    rewriteSelector ("  ".data) (".r".data) = [] ∧
    rewriteOnePart (".r".data) (" ".data) = (".r".data) ++ [' '] :=
  ⟨(rewriteSelector_keeps_empty_elements ("  ".data) (".r".data)).1 (by decide),
   (rewriteSelector_keeps_empty_elements ("  ".data) (".r".data)).2.1 (" ".data) (by decide)⟩

/-! ### Extraction-level claims -/

/-- Claim C1, counterexample: a scope block whose body contains no nested
rule transforms to the empty string; `parseAndTransform` then returns
`some` of the empty text (the join of one empty per-block output), not the
no-transformation signal and not a non-empty text — refuting the claim that
the entry point never returns the empty string. -/
theorem parseAndTransform_empty_output_counterexample :
    parseAndTransform ("@scope (.a) \x7b color: red \x7d".data) = some [] := by
  decide

/-- Claim C1, amended: `parseAndTransform` returns the no-transformation
signal exactly when no scope block with a matched body brace was extracted;
otherwise it returns `some` of the newline-join of the per-block outputs,
which is the empty string whenever every extracted block transformed to
empty text (so an empty result is represented as `some` empty text, distinct
from the `none` signal, and is not guaranteed non-empty). -/
theorem parseAndTransform_none_iff_no_extracted_block (cssText : List Char) :
    (parseAndTransform cssText = none ↔ extractedScopeRules cssText = []) ∧
    (extractedScopeRules cssText ≠ [] →
       parseAndTransform cssText = some (joinSep ['\n'] (extractedScopeRules cssText))) := by
  constructor
  · by_cases h : extractedScopeRules cssText = [] <;> simp [parseAndTransform, h]
  · intro h; simp [parseAndTransform, h]

theorem parseAndTransform_none_iff_no_extracted_block_witness :
    parseAndTransform ("p \x7b c:1; \x7d".data) = none :=
  (parseAndTransform_none_iff_no_extracted_block ("p \x7b c:1; \x7d".data)).1.mpr
    (by decide)

/-- Claim C7: `parseAndTransform` returns the explicit no-match signal iff no
scope block with a matched body brace was extracted from the comment-stripped
input; otherwise the per-block transformed outputs are concatenated in
source (discovery) order separated by a single newline — witnessed
concretely by a stylesheet with two independent scope blocks producing the
two transformed segments in source order. -/
theorem parseAndTransform_join_in_source_order (cssText : List Char) :
    (parseAndTransform cssText = none ↔ extractedScopeRules cssText = []) ∧
    (∀ out, parseAndTransform cssText = some out →
       out = joinSep ['\n'] (extractedScopeRules cssText)) ∧
    (parseAndTransform
        ("@scope (.a) \x7b i \x7b c:1; \x7d \x7d @scope (.b) \x7b j \x7b d:2; \x7d \x7d".data) =
      some ((".a i \x7b c:1; \x7d\n".data) ++ '\n' :: (".b j \x7b d:2; \x7d\n".data))) := by
  refine ⟨?_, ?_, by decide⟩
  · by_cases h : extractedScopeRules cssText = [] <;> simp [parseAndTransform, h]
  · intro out hout
    by_cases h : extractedScopeRules cssText = []
    · simp [parseAndTransform, h] at hout
    · simp [parseAndTransform, h] at hout
      exact hout.symm

theorem parseAndTransform_join_in_source_order_witness :
    ((".a i \x7b c:1; \x7d\n".data) ++ '\n' :: (".b j \x7b d:2; \x7d\n".data)) =
      joinSep ['\n'] (extractedScopeRules
        ("@scope (.a) \x7b i \x7b c:1; \x7d \x7d @scope (.b) \x7b j \x7b d:2; \x7d \x7d".data)) :=
  (parseAndTransform_join_in_source_order
      ("@scope (.a) \x7b i \x7b c:1; \x7d \x7d @scope (.b) \x7b j \x7b d:2; \x7d \x7d".data)).2.1 _
    (parseAndTransform_join_in_source_order
      ("@scope (.a) \x7b i \x7b c:1; \x7d \x7d @scope (.b) \x7b j \x7b d:2; \x7d \x7d".data)).2.2

/-- Claim C5: the balanced splitter splits exactly at the commas at
parenthesis depth 0 outside quoted strings.  Concretely, `:is(.a, .b), .c`
yields exactly the two elements `:is(.a, .b)` and `.c` (after trimming) and
a quoted attribute value containing a comma yields one element; in general,
rejoining the split elements with a comma reconstructs the input (up to one
consumed trailing separator), so the splitter removes exactly the split-point
commas and no characters are lost or reordered. -/
theorem splitByCommaBalanced_top_level_commas :
    ((splitByCommaBalanced (":is(.a, .b), .c".data)).map jsTrim =
       [(":is(.a, .b)".data), (".c".data)]) ∧
    (splitByCommaBalanced ("[data-x=\"a,b\"]".data) = [("[data-x=\"a,b\"]".data)]) ∧
    (∀ text : List Char,
       joinSep [','] (splitByCommaBalanced text) = text ∨
       joinSep [','] (splitByCommaBalanced text) ++ [','] = text) := by
  refine ⟨by decide, by decide, ?_⟩
  intro text
  simpa [splitByCommaBalanced] using splitAux_join text none 0 false ' ' []

/-! ### Fuel-independence of the remaining fuelled scanners, showing the
chosen fuel initialisations are adequate: each function computes the same
result for every fuel at or above the input length. -/

theorem dropWhile_length_le (p : Char → Bool) (l : List Char) :
    (l.dropWhile p).length ≤ l.length := by
  induction l with
  | nil => simp
  | cons a t ih =>
    by_cases hp : p a
    · simp only [List.dropWhile_cons, hp, if_true, List.length_cons]
      omega
    · simp [List.dropWhile_cons, hp]

theorem leadsWith_length_le : ∀ (p s : List Char), leadsWith p s = true →
    p.length ≤ s.length := by
  intro p
  induction p with
  | nil => intro s _; simp
  | cons a p ih =>
    intro s h
    cases s with
    | nil => simp [leadsWith] at h
    | cons b t =>
      simp only [leadsWith, Bool.and_eq_true] at h
      have := ih t h.2
      simp only [List.length_cons]
      omega

theorem head?_some_length {l : List Char} {x : Char} (h : l.head? = some x) :
    1 ≤ l.length := by
  cases l with
  | nil => simp at h
  | cons a t => simp

theorem replaceScopeAux_fuel (root : List Char) :
    ∀ f g s, s.length ≤ f → s.length ≤ g →
      replaceScopeAux root f s = replaceScopeAux root g s := by
  intro f
  induction f with
  | zero =>
    intro g s hf _
    have hs : s = [] := List.eq_nil_of_length_eq_zero (by omega)
    subst hs
    cases g <;> rfl
  | succ f ih =>
    intro g s hf hg
    cases s with
    | nil => cases g <;> rfl
    | cons c rest =>
      obtain ⟨g', rfl⟩ : ∃ g', g = g' + 1 := ⟨g - 1, by simp at hg; omega⟩
      simp only [replaceScopeAux]
      have hr : rest.length ≤ f := by simp at hf; omega
      have hrg : rest.length ≤ g' := by simp at hg; omega
      have hdw := dropWhile_length_le isJsWs rest
      have hd5 : ((rest.dropWhile isJsWs).drop 5).length ≤ f := by
        simp only [List.length_drop]; omega
      have hd5g : ((rest.dropWhile isJsWs).drop 5).length ≤ g' := by
        simp only [List.length_drop]; omega
      by_cases hc : (c = ':' ∧ leadsWith ("scope".data) (rest.dropWhile isJsWs) = true)
      · rw [if_pos hc, if_pos hc, ih g' _ hd5 hd5g]
      · rw [if_neg hc, if_neg hc, ih g' rest hr hrg]

theorem dropToCommentClose_length :
    ∀ (l r : List Char), dropToCommentClose l = some r → r.length + 2 ≤ l.length := by
  intro l
  induction l with
  | nil => intro r h; simp [dropToCommentClose] at h
  | cons a rest ih =>
    intro r h
    simp only [dropToCommentClose] at h
    split at h
    · rename_i hcond
      have hr : rest.tail = r := Option.some.inj h
      cases rest with
      | nil => simp at hcond
      | cons b t =>
        simp only [List.tail_cons] at hr
        subst hr
        simp
    · have := ih r h
      simp only [List.length_cons]
      omega

theorem stripAux_fuel :
    ∀ f g cs, cs.length ≤ f → cs.length ≤ g → stripAux f cs = stripAux g cs := by
  intro f
  induction f with
  | zero =>
    intro g cs hf _
    have hs : cs = [] := List.eq_nil_of_length_eq_zero (by omega)
    subst hs
    cases g <;> rfl
  | succ f ih =>
    intro g cs hf hg
    cases cs with
    | nil => cases g <;> rfl
    | cons c rest =>
      obtain ⟨g', rfl⟩ : ∃ g', g = g' + 1 := ⟨g - 1, by simp at hg; omega⟩
      simp only [stripAux]
      have hr : rest.length ≤ f := by simp at hf; omega
      have hrg : rest.length ≤ g' := by simp at hg; omega
      by_cases hc : (c = '/' ∧ rest.head? = some '*')
      · rw [if_pos hc, if_pos hc]
        cases hdc : dropToCommentClose rest.tail with
        | some r =>
          have hb := dropToCommentClose_length rest.tail r hdc
          have htl : rest.tail.length = rest.length - 1 := List.length_tail _
          have e := ih g' r (by omega) (by omega)
          simp only [e]
        | none =>
          have e := ih g' rest hr hrg
          simp only [e]
      · rw [if_neg hc, if_neg hc, ih g' rest hr hrg]

theorem matchScopeHead_after_lt (s content after : List Char)
    (h : matchScopeHead s = some (content, after)) : after.length < s.length := by
  simp only [matchScopeHead] at h
  split at h
  · rename_i hlead
    have hs6 : 6 ≤ s.length := by
      have := leadsWith_length_le _ _ hlead
      simpa using this
    split at h
    · rename_i hc1
      have hr1len : ((s.drop 6).dropWhile isJsWs).length ≤ s.length - 6 := by
        have := dropWhile_length_le isJsWs (s.drop 6)
        simp only [List.length_drop] at this
        omega
      have hr1pos : 1 ≤ ((s.drop 6).dropWhile isJsWs).length := head?_some_length hc1
      split at h
      · exact absurd h (by simp)
      · split at h
        · rename_i hc3
          have hr3len :
              (((s.drop 6).dropWhile isJsWs).tail.dropWhile (fun c => c != ')')).length ≤
                ((s.drop 6).dropWhile isJsWs).length - 1 := by
            have h1 := dropWhile_length_le (fun c => c != ')')
              ((s.drop 6).dropWhile isJsWs).tail
            have h2 : ((s.drop 6).dropWhile isJsWs).tail.length =
                ((s.drop 6).dropWhile isJsWs).length - 1 := List.length_tail _
            omega
          have hr3pos : 1 ≤
              (((s.drop 6).dropWhile isJsWs).tail.dropWhile (fun c => c != ')')).length :=
            head?_some_length hc3
          split at h
          · rename_i hc5
            have hr5len :
                ((((s.drop 6).dropWhile isJsWs).tail.dropWhile
                    (fun c => c != ')')).tail.dropWhile isJsWs).length ≤
                  (((s.drop 6).dropWhile isJsWs).tail.dropWhile (fun c => c != ')')).length
                    - 1 := by
              have h1 := dropWhile_length_le isJsWs
                (((s.drop 6).dropWhile isJsWs).tail.dropWhile (fun c => c != ')')).tail
              have h2 := List.length_tail
                (((s.drop 6).dropWhile isJsWs).tail.dropWhile (fun c => c != ')'))
              omega
            have hr5pos : 1 ≤
                ((((s.drop 6).dropWhile isJsWs).tail.dropWhile
                    (fun c => c != ')')).tail.dropWhile isJsWs).length :=
              head?_some_length hc5
            have hceq : ((((s.drop 6).dropWhile isJsWs).tail.dropWhile
                (fun c => c != ')')).tail.dropWhile isJsWs).tail = after := by
              have := Option.some.inj h
              exact congrArg Prod.snd this
            have hta := List.length_tail
              ((((s.drop 6).dropWhile isJsWs).tail.dropWhile
                  (fun c => c != ')')).tail.dropWhile isJsWs)
            rw [hceq] at hta
            omega
          · exact absurd h (by simp)
        · exact absurd h (by simp)
    · exact absurd h (by simp)
  · exact absurd h (by simp)

theorem findScopeHead_after_lt :
    ∀ (s content after : List Char), findScopeHead s = some (content, after) →
      after.length < s.length := by
  intro s
  induction s with
  | nil => intro content after h; simp [findScopeHead] at h
  | cons c rest ih =>
    intro content after h
    rw [findScopeHead] at h
    cases hm : matchScopeHead (c :: rest) with
    | some r =>
      rw [hm] at h
      simp only [Option.some.injEq] at h
      subst h
      exact matchScopeHead_after_lt _ _ _ hm
    | none =>
      rw [hm] at h
      simp only at h
      have := ih content after h
      simp only [List.length_cons]
      omega

theorem scopeAux_fuel :
    ∀ f g clean, clean.length < f → clean.length < g →
      scopeAux f clean = scopeAux g clean := by
  intro f
  induction f with
  | zero => intro g clean hf; omega
  | succ f ih =>
    intro g clean hf hg
    obtain ⟨g', rfl⟩ : ∃ g', g = g' + 1 := ⟨g - 1, by omega⟩
    simp only [scopeAux]
    cases hm : findScopeHead clean with
    | none => rfl
    | some pr =>
      obtain ⟨content, after⟩ := pr
      have hlt := findScopeHead_after_lt clean content after hm
      have e := ih g' after (by omega) (by omega)
      simp only [e]
